import Mathlib

/-!
# Verification of the FFTBot numeric pipeline

Shallow embedding of the numeric core of `src/app/page.tsx`:
ingestion post-processing (sort + dedup), sampling-rate estimation,
the FFT wrapper, robust peak detection, harmonic selection and
time-domain reconstruction, together with the `Home` component's
derived-value graph (`spectrum`, `harmonicFreqs`, `harmonicInfo`,
`equation`, `reconstructed`) and the `handleFile` state transition.

Numbers are modelled exactly (rationals / reals), i.e. JavaScript
floating point is idealised as exact arithmetic; timestamps
(`Date.getTime()` milliseconds) are integers.  Functions that are pure
field/order arithmetic are stated over an arbitrary
`LinearOrderedField` so that they can be evaluated at `ℚ` and used at
`ℝ` in the pipeline.
-/

namespace FFTBot

/-- The nine recognized channel columns (`COLUMN_KEYS` in the source). -/
inductive ColumnKey : Type
  | accX | accY | accZ
  | asX | asY | asZ
  | angleX | angleY | angleZ
deriving DecidableEq

/-- One parsed data row (`ParsedRow` in the source): an integer timestamp in
milliseconds and, per channel, either a finite value or nothing (absent /
non-finite cells are never zero-filled). -/
structure ParsedRow (α : Type) where
  time : ℤ
  vals : ColumnKey → Option α

section GenericDefs

variable {α : Type} [LinearOrderedField α]

/-- `data.sort((a, b) => a.time - b.time)` from `parseTxtFile`: a stable sort
of the rows, ascending by timestamp. -/
def sortRows (data : List (ParsedRow α)) : List (ParsedRow α) :=
  data.mergeSort (fun a b => decide (a.time ≤ b.time))

/-- The dedup loop of `parseTxtFile`: walk the (sorted) rows keeping a row
only if its timestamp differs from the previously kept one (`lastT`, which
starts at `-Infinity`, modelled as `none`). -/
def dedupRows : List (ParsedRow α) → Option ℤ → List (ParsedRow α)
  | [], _ => []
  | r :: rs, lastT =>
    if some r.time = lastT then dedupRows rs lastT
    else r :: dedupRows rs (some r.time)

/-- The post-parse normalization of `parseTxtFile`: sort ascending by
timestamp, then drop rows whose timestamp equals the previous kept row's. -/
def parsePost (data : List (ParsedRow α)) : List (ParsedRow α) :=
  dedupRows (sortRows data) none

/-- The delta loop of `estimateSamplingHz`: all positive consecutive
timestamp differences, in order. -/
def posDeltas : List (ParsedRow α) → List ℤ
  | r1 :: r2 :: rs =>
    if 0 < r2.time - r1.time then (r2.time - r1.time) :: posDeltas (r2 :: rs)
    else posDeltas (r2 :: rs)
  | _ => []

/-- `estimateSamplingHz` from the source: `null` when fewer than 2 rows or no
positive delta exists, else `1000 / median(positive ms deltas)` with the
median of the sorted deltas (`deltas[mid]` for odd length, the average of the
two middle entries for even length). -/
def estimateSamplingHz (rows : List (ParsedRow α)) : Option α :=
  if rows.length < 2 then none
  else
    let deltas := posDeltas rows
    if deltas.length = 0 then none
    else
      let sorted := deltas.mergeSort (fun a b => decide (a ≤ b))
      let mid := deltas.length / 2
      let medianMs : α :=
        if deltas.length % 2 = 1 then ((sorted.getD mid 0 : ℤ) : α)
        else (((sorted.getD (mid - 1) 0 : ℤ) : α) + ((sorted.getD mid 0 : ℤ) : α)) / 2
      some (1000 / medianMs)

/-- `median` from the source: `0` on the empty list, else the middle entry of
a sorted copy (average of the two middle entries for even length). -/
def median (values : List α) : α :=
  if values.length = 0 then 0
  else
    let arr := values.mergeSort (fun a b => decide (a ≤ b))
    let mid := values.length / 2
    if values.length % 2 = 1 then arr.getD mid 0
    else (arr.getD (mid - 1) 0 + arr.getD mid 0) / 2

/-- The `Spectrum` type from the source: index-aligned frequency and
magnitude arrays. -/
structure Spectrum (α : Type) where
  freqs : List α
  mags : List α

/-- The `Peak` type from the source. -/
structure Peak (α : Type) where
  index : ℕ
  freq : α
  mag : α
  residual : α

/-- The `magsIn` array of `detectPeaksIgnoringNoiseFloor`: the magnitudes of
the bins (below `n = min(freqs.length, mags.length)`) whose frequency is at
least `fminHz`, in index order. -/
def magsInRange (s : Spectrum α) (fminHz : α) : List α :=
  ((List.range (min s.freqs.length s.mags.length)).filter
      (fun i => decide (fminHz ≤ s.freqs.getD i 0))).map
    (fun i => s.mags.getD i 0)

/-- The `threshold = med + 3 * mad` of `detectPeaksIgnoringNoiseFloor`, with
`med` the median of the in-range magnitudes and
`mad = max(1e-12, median(|v - med|))`. -/
def peakThreshold (s : Spectrum α) (fminHz : α) : α :=
  let magsIn := magsInRange s fminHz
  let med := median magsIn
  let mad := max (1 / 10 ^ 12) (median (magsIn.map (fun v => |v - med|)))
  med + 3 * mad

/-- The loop body condition of `detectPeaksIgnoringNoiseFloor` at index `i`:
in range, above threshold, and a strict local maximum. -/
def isPeakAt (s : Spectrum α) (fminHz : α) (i : ℕ) : Bool :=
  decide (fminHz ≤ s.freqs.getD i 0) &&
  decide (peakThreshold s fminHz < s.mags.getD i 0) &&
  decide (s.mags.getD (i - 1) 0 < s.mags.getD i 0) &&
  decide (s.mags.getD (i + 1) 0 < s.mags.getD i 0)

/-- `detectPeaksIgnoringNoiseFloor` from the source: `[]` when fewer than 5
bins exist or fewer than 5 are in range; else the strict interior local
maxima above the robust threshold, each carrying
`residual = magnitude - threshold`, sorted descending by residual
(`sort((a, b) => b.residual - a.residual)`, a stable sort). -/
def detectPeaksIgnoringNoiseFloor (s : Spectrum α) (fminHz : α) : List (Peak α) :=
  let n := min s.freqs.length s.mags.length
  if n < 5 then []
  else if (magsInRange s fminHz).length < 5 then []
  else
    (((List.range' 1 (n - 2)).filter (isPeakAt s fminHz)).map
        (fun i =>
          ⟨i, s.freqs.getD i 0, s.mags.getD i 0,
            s.mags.getD i 0 - peakThreshold s fminHz⟩)).mergeSort
      (fun a b => decide (b.residual ≤ a.residual))

/-- The dedup walk of `getHarmonicFrequencies`: keep a frequency only if it
differs from the last kept one by more than `1e-6`. -/
def dedupNear : List α → Option α → List α
  | [], _ => []
  | f :: fs, none => f :: dedupNear fs (some f)
  | f :: fs, some last =>
    if 1 / 10 ^ 6 < |f - last| then f :: dedupNear fs (some f)
    else dedupNear fs (some last)

/-- `getHarmonicFrequencies` from the source: peak frequencies at or above
`fminHz`, re-sorted descending by raw magnitude
(`sort((a, b) => b.mag - a.mag)`, stable), with near-equal neighbours
deduplicated. -/
def getHarmonicFrequencies (s : Spectrum α) (fminHz : α) : List α :=
  let peaks :=
    ((detectPeaksIgnoringNoiseFloor s fminHz).filter
        (fun p => decide (fminHz ≤ p.freq))).mergeSort
      (fun a b => decide (b.mag ≤ a.mag))
  dedupNear (peaks.map (fun p => p.freq)) none

end GenericDefs

section RealDefs

open Real

/-- The `ComplexSpectrum` type from the source (`fftSize` is an optional
field there, hence `Option ℕ`). -/
structure ComplexSpectrum : Type where
  freqs : List ℝ
  mags : List ℝ
  phases : List ℝ
  fftSize : Option ℕ

/-- A `ComplexSpectrum` used where a plain `Spectrum` is expected
(in TS this is structural subtyping). -/
def ComplexSpectrum.toSpectrum (s : ComplexSpectrum) : Spectrum ℝ :=
  ⟨s.freqs, s.mags⟩

/-- `Math.atan2(y, x)`: the argument of the complex number `x + y·i`
(`Complex.arg` has range `(-π, π]` and sends `0` to `0`, matching
`Math.atan2(0, 0) = 0`). -/
noncomputable def jsAtan2 (y x : ℝ) : ℝ :=
  Complex.arg ⟨x, y⟩

/-- Modelled from the spec: the external `fft.js` radix-2 transform (not part
of this repository) computes the discrete Fourier transform of the input
zero-padded to length `N`, i.e. bin `k` is
`Σ_{j<N} x_j · exp(-2πi·j·k/N)`. -/
noncomputable def jsDft (x : List ℝ) (N : ℕ) (k : ℕ) : ℂ :=
  ∑ j ∈ Finset.range N,
    (x.getD j 0 : ℂ) * Complex.exp (-(2 * Real.pi * Complex.I * j * k) / N)

/-- `computeFftWithPhase` from the source: zero-pad to
`pow2 = 2^ceil(log2(max(2, N)))`, transform, and emit the single-sided
spectrum for bins `0..pow2/2`: `frequency[k] = k·Fs/pow2`,
`magnitude[k] = hypot(re, im) = sqrt(re² + im²)`,
`phase[k] = atan2(im, re)`. -/
noncomputable def computeFftWithPhase (acc : List ℝ) (sampleHz : ℝ) : ComplexSpectrum :=
  let pow2 := 2 ^ Nat.clog 2 (max 2 acc.length)
  let out := fun k => jsDft acc pow2 k
  let half := pow2 / 2
  { freqs := (List.range (half + 1)).map (fun k : ℕ => (k : ℝ) * sampleHz / (pow2 : ℝ))
    mags := (List.range (half + 1)).map
      (fun k => Real.sqrt ((out k).re ^ 2 + (out k).im ^ 2))
    phases := (List.range (half + 1)).map (fun k => jsAtan2 (out k).im (out k).re)
    fftSize := some pow2 }

/-- The `series` memo of `Home`: `rows?.map(r => r[selectedKey] ?? NaN) ?? []`,
with a missing / non-finite cell (`NaN`) modelled as `none`. -/
def seriesOf (rows : Option (List (ParsedRow ℝ))) (key : ColumnKey) : List (Option ℝ) :=
  (rows.getD []).map (fun r => r.vals key)

/-- The `sampleHz` memo of `Home`: `rows ? estimateSamplingHz(rows) : null`. -/
noncomputable def sampleHzOf (rows : Option (List (ParsedRow ℝ))) : Option ℝ :=
  match rows with
  | none => none
  | some rs => estimateSamplingHz rs

/-- The `spectrum` memo of `Home`: `null` when there are no rows, no rate
(`!sampleHz` is also truthy for a zero rate), or fewer than 4 finite values
in the selected channel; else the FFT of the finite values.
(`Number.isFinite(sampleHz)` always holds in this exact-real model.) -/
noncomputable def spectrumOf (rows : Option (List (ParsedRow ℝ))) (key : ColumnKey) :
    Option ComplexSpectrum :=
  match rows, sampleHzOf rows with
  | some rs, some sampleHz =>
    if sampleHz = 0 then none
    else
      let clean := (seriesOf (some rs) key).filterMap id
      if clean.length < 4 then none
      else some (computeFftWithPhase clean sampleHz)
  | _, _ => none

/-- The `harmonicFreqs` memo of `Home`: `[]` without a spectrum. -/
noncomputable def harmonicFreqsOf (spectrum : Option ComplexSpectrum) (fminHz : ℝ) : List ℝ :=
  match spectrum with
  | none => []
  | some s => getHarmonicFrequencies s.toSpectrum fminHz

/-- The nearest-bin linear scan shared verbatim by `harmonicInfo` and
`reconstructed`: the first index minimising `|freqs[i] - f|`.  (The source
keeps the running best distance in a separate variable initialised to
`Infinity`; the accumulator index always realises that best distance, so the
fold below is the same scan.) -/
noncomputable def nearestBinIdx (freqs : List ℝ) (f : ℝ) : ℕ :=
  (List.range freqs.length).foldl
    (fun idx i => if |freqs.getD i 0 - f| < |freqs.getD idx 0 - f| then i else idx) 0

/-- The `HarmonicInfo` record pushed by the `harmonicInfo` memo. -/
structure HarmonicInfo : Type where
  freq : ℝ
  mag : ℝ
  phase : ℝ
  amp : ℝ

/-- The loop body of the `harmonicInfo` memo for one chosen frequency:
nearest bin, raw magnitude, `amp = mag / Nfft` for the DC bin and
`(2·mag) / (Nfft · coherentGain)` otherwise (`coherentGain = 1.0`,
rectangular window; `Nfft = fftSize ?? 1`), `phase = phases[idx] ?? 0`. -/
noncomputable def harmonicAmpInfo (s : ComplexSpectrum) (f : ℝ) : HarmonicInfo :=
  let idx := nearestBinIdx s.freqs f
  let mag := s.mags.getD idx 0
  let coherentGain : ℝ := 1
  let Nfft : ℝ := (s.fftSize.getD 1 : ℕ)
  let amp := if idx = 0 then mag / Nfft else (2 * mag) / (Nfft * coherentGain)
  ⟨f, mag, s.phases.getD idx 0, amp⟩

/-- The `harmonicInfo` memo of `Home`: `[]` without a spectrum or with a zero
harmonic count, else one record per chosen frequency
(`harmonicFreqs.slice(0, harmonicsCount)`). -/
noncomputable def harmonicInfoOf (spectrum : Option ComplexSpectrum)
    (harmonicFreqs : List ℝ) (harmonicsCount : ℕ) : List HarmonicInfo :=
  match spectrum with
  | none => []
  | some s =>
    if harmonicsCount = 0 then []
    else (harmonicFreqs.take harmonicsCount).map (fun f => harmonicAmpInfo s f)

/-- The per-frequency amplitude and phase recovery inside `reconstructed`:
nearest bin, `amp = mag / Nfft / coherentGain` for the DC bin and
`2 · mag / Nfft / coherentGain` otherwise (`coherentGain = 1.0`;
`Nfft = fftSize ?? freqs.length * 2`), `phi = phases[idx] ?? 0`. -/
noncomputable def reconAmpPhase (s : ComplexSpectrum) (f : ℝ) : ℝ × ℝ :=
  let idx := nearestBinIdx s.freqs f
  let mag := s.mags.getD idx 0
  let coherentGain : ℝ := 1
  let Nfft : ℝ := (s.fftSize.getD (s.freqs.length * 2) : ℕ)
  let amp := if idx = 0 then mag / Nfft / coherentGain else 2 * mag / Nfft / coherentGain
  (amp, s.phases.getD idx 0)

/-- The `relTimesSec` memo of `Home`: times in seconds since the first
sample, clamped to be monotone (`prev = i === 0 ? 0 : max(prev, t)`). -/
noncomputable def relTimesAux (t0 : ℤ) : List (ParsedRow ℝ) → ℝ → List ℝ
  | [], _ => []
  | r :: rs, prev =>
    let p := max prev (((r.time - t0 : ℤ) : ℝ) / 1000)
    p :: relTimesAux t0 rs p

/-- The `relTimesSec` memo of `Home`: `[]` without rows; the first entry is
`0` and later entries are the max-clamped relative times. -/
noncomputable def relTimesSec : List (ParsedRow ℝ) → List ℝ
  | [] => []
  | r0 :: rest => 0 :: relTimesAux r0.time rest 0

/-- The chosen-frequency list of `reconstructed`:
`harmonicFreqs.slice(0, min(harmonicsCount, harmonicFreqs.length))`
restricted to `[fminHz, nyq]`. -/
noncomputable def chosenFreqsOf (harmonicFreqs : List ℝ) (harmonicsCount : ℕ)
    (fminHz nyq : ℝ) : List ℝ :=
  (harmonicFreqs.take (min harmonicsCount harmonicFreqs.length)).filter
    (fun f => decide (fminHz ≤ f) && decide (f ≤ nyq))

/-- The `meanOrig` of `reconstructed`:
`series.reduce((s, v) => s + (Number.isFinite(v) ? v : 0), 0) / series.length`
— note the divisor is the total number of samples, not the number of finite
values. -/
noncomputable def codeMean (series : List (Option ℝ)) : ℝ :=
  (series.foldl (fun sa v => sa + v.getD 0) 0) / (series.length : ℝ)

/-- The `reconstructed` memo of `Home` (its numeric `y` array): `null`
without a spectrum, rows, or rate (`!sampleHz` is also truthy for a zero
rate), with no sample times, or with no chosen frequency left in
`[fminHz, Nyquist]`; else, per sample time `t`, the sum over chosen
frequencies of `amp · cos(2π·f·t + phi)` plus `meanOrig` added once
globally.  (The source accumulates frequency contributions into `yRecon`
with the time loop inside the frequency loop; summing per time over the
frequencies in the same order yields the same exact-real values.) -/
noncomputable def reconstructedOf (spectrum : Option ComplexSpectrum)
    (rows : Option (List (ParsedRow ℝ))) (sampleHz : Option ℝ)
    (harmonicFreqs : List ℝ) (harmonicsCount : ℕ) (fminHz : ℝ)
    (key : ColumnKey) : Option (List ℝ) :=
  match spectrum, rows, sampleHz with
  | some s, some rs, some sampleHz =>
    if sampleHz = 0 then none
    else
      let time := relTimesSec rs
      if time.length = 0 then none
      else
        let nyq := sampleHz / 2
        let chosen := chosenFreqsOf harmonicFreqs harmonicsCount fminHz nyq
        if chosen.length = 0 then none
        else
          let series := seriesOf (some rs) key
          let yRecon := time.map (fun t =>
            chosen.foldl (fun acc f =>
              acc + (reconAmpPhase s f).1 *
                Real.cos (2 * Real.pi * f * t + (reconAmpPhase s f).2)) 0)
          some (yRecon.map (fun y => y + codeMean series))
  | _, _, _ => none

/-- The `equation` memo of `Home`, with the numeric rendering of one term
(JavaScript's `toFixed(4)` formatting, external to the numeric core)
abstracted as `render`: the empty string when there are no harmonics, else
the terms joined in selection order. -/
def equationOf (render : HarmonicInfo → String) (info : List HarmonicInfo) : String :=
  if info.length = 0 then ""
  else "y(t) = " ++ String.intercalate " + " (info.map render)

/-- The two state atoms of `Home` written by `handleFile`. -/
structure AppState : Type where
  rows : Option (List (ParsedRow ℝ))
  error : Option String

/-- `handleFile` from the source, as a state transition on the parse
outcome: every branch assigns both `rows` and `error` (the previous state is
never partially kept).  A thrown parse error keeps its message
(`msg || "Failed to parse file"`); an empty row list produces the
no-valid-rows message; success stores the rows and clears the error. -/
def handleFile (parseResult : Except String (List (ParsedRow ℝ))) (_prev : AppState) :
    AppState :=
  match parseResult with
  | .error msg =>
    { rows := none
      error := some (if msg = "" then "Failed to parse file" else msg) }
  | .ok parsed =>
    if parsed.length = 0 then
      { rows := none
        error := some "No valid rows parsed. Ensure the file is tab-delimited with header including AccX(g)." }
    else { rows := some parsed, error := none }

/-- The value claim C1 predicts for one sample, following the claim's words:
the arithmetic mean of the channel's **finite** values (not the code's
division by the total sample count), plus the sum over the chosen harmonics
of `amplitude · cos(2π·f·t + phase)` with the claim's amplitude formula
(`mag/fftSize` for bin 0, else `2·mag/(fftSize·coherentGain)`,
`coherentGain = 1`). -/
noncomputable def specMeanOfFinite (series : List (Option ℝ)) : ℝ :=
  ((series.filterMap id).sum) / ((series.filterMap id).length : ℝ)

/-- The per-sample value asserted by claim C1 (see `specMeanOfFinite`). -/
noncomputable def specC1Value (s : ComplexSpectrum) (chosen : List ℝ)
    (series : List (Option ℝ)) (t : ℝ) : ℝ :=
  specMeanOfFinite series +
    (chosen.map (fun f =>
      let idx := nearestBinIdx s.freqs f
      let mag := s.mags.getD idx 0
      let Nfft : ℝ := (s.fftSize.getD 0 : ℕ)
      let amp := if idx = 0 then mag / Nfft else 2 * mag / (Nfft * 1)
      amp * Real.cos (2 * Real.pi * f * t + s.phases.getD idx 0))).sum

end RealDefs

/-! ## Claim C8: insufficient-data propagation -/

/-- **C8.** For every Series and selected channel, when fewer than 4 finite
values exist in the selected channel the spectral analysis returns `none`,
and the downstream stages (harmonic discovery, harmonic info, reconstruction)
produce empty results from the missing spectrum; no exception is possible in
this total model. -/
theorem c8_insufficient_data_propagation (rows : List (ParsedRow ℝ)) (key : ColumnKey)
    (fminHz : ℝ) (hf : List ℝ) (cnt : ℕ)
    (h : ((seriesOf (some rows) key).filterMap id).length < 4) :
    spectrumOf (some rows) key = none ∧
    harmonicFreqsOf (spectrumOf (some rows) key) fminHz = [] ∧
    harmonicInfoOf (spectrumOf (some rows) key) hf cnt = [] ∧
    reconstructedOf (spectrumOf (some rows) key) (some rows) (sampleHzOf (some rows))
      hf cnt fminHz key = none := by
  have hs : spectrumOf (some rows) key = none := by
    unfold spectrumOf
    rcases hE : sampleHzOf (some rows) with _ | Fs
    · rfl
    · by_cases h0 : Fs = 0
      · simp [h0]
      · simp [h0, if_neg (not_lt.mpr (le_of_lt h)), h]
  refine ⟨hs, ?_, ?_, ?_⟩ <;> rw [hs] <;> rfl

/-- Witness for C8 at a concrete input: the empty Series has zero finite
values in the `AccX(g)` channel, and the whole pipeline degrades to
`none`/`[]`. -/
theorem c8_insufficient_data_propagation_witness :
    ((seriesOf (some ([] : List (ParsedRow ℝ))) ColumnKey.accX).filterMap id).length < 4 ∧
    spectrumOf (some ([] : List (ParsedRow ℝ))) ColumnKey.accX = none :=
  ⟨by simp [seriesOf],
    (c8_insufficient_data_propagation [] ColumnKey.accX 0 [] 0
      (by simp [seriesOf])).1⟩

/-! ## Claim C10: failed file load discards all state -/

/-- **C10.** On a failed file load — the parse throws, or zero rows survive —
`handleFile` sets the Series to `none` and records an error message,
whatever the previous state was; consequently every derived output
(spectrum, harmonics, harmonic info, reconstruction, equation) is the
empty/null one, and no previous data survives alongside the error. -/
theorem c10_failed_load_discards_state (pr : Except String (List (ParsedRow ℝ)))
    (prev : AppState) (key : ColumnKey) (fminHz : ℝ) (hf : List ℝ) (cnt : ℕ)
    (render : HarmonicInfo → String)
    (h : (∃ msg, pr = Except.error msg) ∨ pr = Except.ok []) :
    (handleFile pr prev).rows = none ∧
    (handleFile pr prev).error ≠ none ∧
    spectrumOf (handleFile pr prev).rows key = none ∧
    harmonicFreqsOf (spectrumOf (handleFile pr prev).rows key) fminHz = [] ∧
    harmonicInfoOf (spectrumOf (handleFile pr prev).rows key) hf cnt = [] ∧
    reconstructedOf (spectrumOf (handleFile pr prev).rows key)
      (handleFile pr prev).rows (sampleHzOf (handleFile pr prev).rows)
      hf cnt fminHz key = none ∧
    equationOf render (harmonicInfoOf (spectrumOf (handleFile pr prev).rows key) hf cnt) = "" := by
  have hrows : (handleFile pr prev).rows = none ∧ (handleFile pr prev).error ≠ none := by
    rcases h with ⟨msg, rfl⟩ | rfl
    · constructor
      · rfl
      · by_cases hm : msg = "" <;> simp [handleFile, hm]
    · exact ⟨rfl, by simp [handleFile]⟩
  refine ⟨hrows.1, hrows.2, ?_, ?_, ?_, ?_, ?_⟩ <;> rw [hrows.1] <;> rfl

/-- Witness for C10: a concrete thrown parse error wipes a previously loaded
one-row Series. -/
theorem c10_failed_load_discards_state_witness :
    ((∃ msg, (Except.error "boom" : Except String (List (ParsedRow ℝ))) = Except.error msg) ∨
      (Except.error "boom" : Except String (List (ParsedRow ℝ))) = Except.ok []) ∧
    (handleFile (Except.error "boom")
      ⟨some [⟨0, fun _ => none⟩], none⟩).rows = none :=
  ⟨Or.inl ⟨"boom", rfl⟩,
    (c10_failed_load_discards_state (Except.error "boom")
      ⟨some [⟨0, fun _ => none⟩], none⟩ ColumnKey.accX 0 [] 0 (fun _ => "")
      (Or.inl ⟨"boom", rfl⟩)).1⟩

/-! ## Claim C9: the harmonic table agrees with the reconstruction -/

/-- **C9.** For every spectrum whose `fftSize` field is set (as it always is
for a spectrum produced by `computeFftWithPhase`) and every selected
harmonic, the amplitude and phase shown in the harmonic table
(`harmonicInfo`) equal the amplitude and phase used by the time-domain
reconstruction (`reconstructed`): both resolve the same nearest bin via
`nearestBinIdx`, and `mag/Nfft` vs `mag/Nfft/coherentGain` (DC) and
`(2·mag)/(Nfft·coherentGain)` vs `2·mag/Nfft/coherentGain` coincide for
`coherentGain = 1`. -/
theorem c9_harmonic_table_matches_reconstruction (s : ComplexSpectrum) (n : ℕ)
    (hn : s.fftSize = some n) (hf : List ℝ) (cnt : ℕ) :
    ∀ info ∈ harmonicInfoOf (some s) hf cnt,
      info.amp = (reconAmpPhase s info.freq).1 ∧
      info.phase = (reconAmpPhase s info.freq).2 := by
  intro info hinfo
  simp only [harmonicInfoOf] at hinfo
  rcases Nat.eq_zero_or_pos cnt with rfl | hcnt
  · simp at hinfo
  · rw [if_neg (Nat.pos_iff_ne_zero.mp hcnt)] at hinfo
    obtain ⟨f, -, rfl⟩ := List.mem_map.mp hinfo
    unfold harmonicAmpInfo reconAmpPhase
    rw [hn]
    constructor
    · by_cases hidx : nearestBinIdx s.freqs f = 0 <;>
        simp only [hidx, Option.getD_some, if_pos, if_neg, if_true, if_false] <;>
        ring_nf
    · rfl

/-- Witness for C9 at a concrete spectrum (`fftSize = some 4`) with one
selected harmonic. -/
theorem c9_harmonic_table_matches_reconstruction_witness :
    (ComplexSpectrum.mk [0, 1] [3, 5] [0, 0] (some 4)).fftSize = some 4 ∧
    ∀ info ∈ harmonicInfoOf (some (ComplexSpectrum.mk [0, 1] [3, 5] [0, 0] (some 4))) [1] 1,
      info.amp = (reconAmpPhase (ComplexSpectrum.mk [0, 1] [3, 5] [0, 0] (some 4)) info.freq).1 ∧
      info.phase = (reconAmpPhase (ComplexSpectrum.mk [0, 1] [3, 5] [0, 0] (some 4)) info.freq).2 :=
  ⟨rfl, c9_harmonic_table_matches_reconstruction _ 4 rfl [1] 1⟩

/-! ## Claim C7: reconstruction range filtering -/

/-- **C7.** Only harmonics with frequency in `[fminHz, Nyquist]`
(`Nyquist = sampleHz / 2`) survive the chosen-frequency filter of
`reconstructed` (so only those contribute to the reconstruction), and when
no harmonic survives the result is `none` rather than an error. -/
theorem c7_reconstruction_range_filter (s : ComplexSpectrum)
    (rows : List (ParsedRow ℝ)) (sampleHz : ℝ) (hf : List ℝ) (cnt : ℕ)
    (fminHz : ℝ) (key : ColumnKey) :
    (∀ f, f ∈ chosenFreqsOf hf cnt fminHz (sampleHz / 2) ↔
      (f ∈ hf.take (min cnt hf.length) ∧ fminHz ≤ f ∧ f ≤ sampleHz / 2)) ∧
    (chosenFreqsOf hf cnt fminHz (sampleHz / 2) = [] →
      reconstructedOf (some s) (some rows) (some sampleHz) hf cnt fminHz key = none) := by
  constructor
  · intro f
    unfold chosenFreqsOf
    simp [List.mem_filter, and_assoc]
  · intro hempty
    unfold reconstructedOf
    by_cases h0 : sampleHz = 0
    · simp [h0]
    · by_cases ht : (relTimesSec rows).length = 0
      · simp [h0, ht]
      · simp [h0, ht, hempty]

/-- Witness for C7: with an empty harmonic list nothing survives the filter
and the reconstruction is `none`. -/
theorem c7_reconstruction_range_filter_witness :
    chosenFreqsOf [] 1 0 (2 / 2) = [] ∧
    reconstructedOf (some (ComplexSpectrum.mk [] [] [] none)) (some []) (some 2)
      [] 1 0 ColumnKey.accX = none :=
  ⟨rfl,
    (c7_reconstruction_range_filter (ComplexSpectrum.mk [] [] [] none) [] 2 [] 1 0
      ColumnKey.accX).2 rfl⟩

/-! ## Claim C3: the FFT wrapper contract -/

/-- Evaluating `getD` at an in-range index of a mapped `range`. -/
theorem getD_map_range {β : Type} [Inhabited β] (m k : ℕ) (f : ℕ → β) (d : β) (hk : k < m) :
    ((List.range m).map f).getD k d = f k := by
  rw [List.getD_eq_getElem?_getD, List.getElem?_map, List.getElem?_range hk]
  rfl

/-- The frequency array built by `computeFftWithPhase`, unfolded. -/
theorem computeFft_freqs_eq (acc : List ℝ) (sampleHz : ℝ) :
    (computeFftWithPhase acc sampleHz).freqs =
      (List.range (2 ^ Nat.clog 2 (max 2 acc.length) / 2 + 1)).map
        (fun k : ℕ => (k : ℝ) * sampleHz / ((2 ^ Nat.clog 2 (max 2 acc.length) : ℕ) : ℝ)) := rfl

/-- The magnitude array built by `computeFftWithPhase`, unfolded. -/
theorem computeFft_mags_eq (acc : List ℝ) (sampleHz : ℝ) :
    (computeFftWithPhase acc sampleHz).mags =
      (List.range (2 ^ Nat.clog 2 (max 2 acc.length) / 2 + 1)).map
        (fun k => Real.sqrt ((jsDft acc (2 ^ Nat.clog 2 (max 2 acc.length)) k).re ^ 2 +
          (jsDft acc (2 ^ Nat.clog 2 (max 2 acc.length)) k).im ^ 2)) := rfl

/-- The phase array built by `computeFftWithPhase`, unfolded. -/
theorem computeFft_phases_eq (acc : List ℝ) (sampleHz : ℝ) :
    (computeFftWithPhase acc sampleHz).phases =
      (List.range (2 ^ Nat.clog 2 (max 2 acc.length) / 2 + 1)).map
        (fun k => jsAtan2 (jsDft acc (2 ^ Nat.clog 2 (max 2 acc.length)) k).im
          (jsDft acc (2 ^ Nat.clog 2 (max 2 acc.length)) k).re) := rfl

/-- **C3.** For every input sequence of length `len ≥ 1` and sampling rate,
the spectrum uses `fftSize = 2^ceil(log2(max(2, len)))` — a power of two at
least `len`; the frequency, magnitude and phase arrays all have length
`fftSize/2 + 1`; `frequency[k] = k·Fs/fftSize` for every bin; every
magnitude is non-negative; and the phase is a well-defined real number even
when the magnitude is exactly `0` — in that case it is `atan2(0, 0) = 0`. -/
theorem c3_fft_wrapper_contract (acc : List ℝ) (sampleHz : ℝ) (h : 1 ≤ acc.length) :
    (computeFftWithPhase acc sampleHz).fftSize =
      some (2 ^ Nat.clog 2 (max 2 acc.length)) ∧
    acc.length ≤ 2 ^ Nat.clog 2 (max 2 acc.length) ∧
    (computeFftWithPhase acc sampleHz).freqs.length =
      2 ^ Nat.clog 2 (max 2 acc.length) / 2 + 1 ∧
    (computeFftWithPhase acc sampleHz).mags.length =
      2 ^ Nat.clog 2 (max 2 acc.length) / 2 + 1 ∧
    (computeFftWithPhase acc sampleHz).phases.length =
      2 ^ Nat.clog 2 (max 2 acc.length) / 2 + 1 ∧
    (∀ k < 2 ^ Nat.clog 2 (max 2 acc.length) / 2 + 1,
      (computeFftWithPhase acc sampleHz).freqs.getD k 0 =
        (k : ℝ) * sampleHz / ((2 ^ Nat.clog 2 (max 2 acc.length) : ℕ) : ℝ)) ∧
    (∀ m ∈ (computeFftWithPhase acc sampleHz).mags, 0 ≤ m) ∧
    (∀ k, (computeFftWithPhase acc sampleHz).mags.getD k 0 = 0 →
      (computeFftWithPhase acc sampleHz).phases.getD k 0 = 0) := by
  refine ⟨rfl, ?_,
    by rw [computeFft_freqs_eq]; simp,
    by rw [computeFft_mags_eq]; simp,
    by rw [computeFft_phases_eq]; simp, ?_, ?_, ?_⟩
  · exact le_trans (le_max_right 2 acc.length) (Nat.le_pow_clog one_lt_two _)
  · intro k hk
    rw [computeFft_freqs_eq]
    exact getD_map_range _ _ _ _ hk
  · intro m hm
    rw [computeFft_mags_eq] at hm
    obtain ⟨k, -, rfl⟩ := List.mem_map.mp hm
    exact Real.sqrt_nonneg _
  · intro k hk
    by_cases hkr : k < 2 ^ Nat.clog 2 (max 2 acc.length) / 2 + 1
    · rw [computeFft_mags_eq, getD_map_range _ _ _ _ hkr] at hk
      have hsq : (jsDft acc (2 ^ Nat.clog 2 (max 2 acc.length)) k).re ^ 2 +
          (jsDft acc (2 ^ Nat.clog 2 (max 2 acc.length)) k).im ^ 2 ≤ 0 :=
        Real.sqrt_eq_zero'.mp hk
      have hre : (jsDft acc (2 ^ Nat.clog 2 (max 2 acc.length)) k).re = 0 := by
        nlinarith [sq_nonneg (jsDft acc (2 ^ Nat.clog 2 (max 2 acc.length)) k).re,
          sq_nonneg (jsDft acc (2 ^ Nat.clog 2 (max 2 acc.length)) k).im]
      have him : (jsDft acc (2 ^ Nat.clog 2 (max 2 acc.length)) k).im = 0 := by
        nlinarith [sq_nonneg (jsDft acc (2 ^ Nat.clog 2 (max 2 acc.length)) k).re,
          sq_nonneg (jsDft acc (2 ^ Nat.clog 2 (max 2 acc.length)) k).im]
      rw [computeFft_phases_eq, getD_map_range _ _ _ _ hkr, him, hre]
      unfold jsAtan2
      rw [show (⟨0, 0⟩ : ℂ) = 0 from Complex.ext rfl rfl]
      exact Complex.arg_zero
    · rw [List.getD_eq_getElem?_getD, List.getElem?_eq_none, Option.getD_none]
      rw [show (computeFftWithPhase acc sampleHz).phases.length =
        2 ^ Nat.clog 2 (max 2 acc.length) / 2 + 1 from by rw [computeFft_phases_eq]; simp]
      omega

/-- Witness for C3 at the one-point sequence `[1]` with rate `1`. -/
theorem c3_fft_wrapper_contract_witness :
    1 ≤ ([1] : List ℝ).length ∧
    (computeFftWithPhase [1] 1).fftSize = some (2 ^ Nat.clog 2 (max 2 [(1 : ℝ)].length)) :=
  ⟨by simp, (c3_fft_wrapper_contract [1] 1 (by simp)).1⟩

/-! ## Claim C5: the sampling-rate estimator -/

/-- `mergeSort` with the `decide (a ≤ b)` comparator sorts. -/
theorem sorted_mergeSort_le {β : Type} [LinearOrder β] (l : List β) :
    (l.mergeSort (fun a b => decide (a ≤ b))).Sorted (fun a b : β => a ≤ b) := by
  have h := @List.sorted_mergeSort _ (fun a b : β => decide (a ≤ b))
    (fun a b c hab hbc => by
      simp only [decide_eq_true_eq] at hab hbc ⊢
      exact le_trans hab hbc)
    (fun a b => by
      simp only [Bool.or_eq_true, decide_eq_true_eq]
      exact le_total a b) l
  exact h.imp (fun {a b} hab => by simpa using hab)

/-- `getD` with default `0` commutes with casting an integer list into the
field. -/
theorem getD_map_intCast {α : Type} [LinearOrderedField α] (l : List ℤ) (i : ℕ) :
    ((l.map (fun d : ℤ => (d : α))).getD i 0) = ((l.getD i 0 : ℤ) : α) := by
  rw [List.getD_eq_getElem?_getD, List.getElem?_map, List.getD_eq_getElem?_getD]
  cases h : l[i]? <;> simp

/-- **C5.** With at least 2 samples and at least one positive consecutive
delta, the estimated rate is `1000 / median(positive ms deltas)` (the file's
`median`, applied to the deltas); with fewer than 2 samples or no positive
delta it is `none`; and the estimate is invariant under any reordering of
duplicate-free rows that has the same multiset of positive deltas. -/
theorem c5_sampling_estimator {α : Type} [LinearOrderedField α]
    (rows : List (ParsedRow α)) :
    (2 ≤ rows.length → posDeltas rows ≠ [] →
      estimateSamplingHz rows =
        some (1000 / median ((posDeltas rows).map (fun d : ℤ => (d : α))))) ∧
    (rows.length < 2 ∨ posDeltas rows = [] → estimateSamplingHz rows = none) ∧
    (∀ rows' : List (ParsedRow α), rows.Pairwise (fun a b => a.time ≠ b.time) →
      rows'.Perm rows → (posDeltas rows').Perm (posDeltas rows) →
      estimateSamplingHz rows' = estimateSamplingHz rows) := by
  refine ⟨?_, ?_, ?_⟩
  · intro h2 hne
    have hlen0 : ¬ ((posDeltas rows).length = 0) := by
      simpa [List.length_eq_zero] using hne
    have hsort : ((posDeltas rows).map (fun d : ℤ => (d : α))).mergeSort
        (fun a b => decide (a ≤ b)) =
        ((posDeltas rows).mergeSort (fun a b => decide (a ≤ b))).map
          (fun d : ℤ => (d : α)) := by
      rw [List.map_mergeSort (fun a ha b hb => ?_)]
      simp only [decide_eq_decide]
      exact Iff.symm Int.cast_le
    simp only [estimateSamplingHz, median, List.length_map, hsort, getD_map_intCast]
    rw [if_neg (show ¬ rows.length < 2 by omega), if_neg hlen0, if_neg hlen0]
  · intro h
    simp only [estimateSamplingHz]
    rcases h with h | h
    · rw [if_pos h]
    · rw [h]
      simp only [List.length_nil]
      split
      · rfl
      · rfl
  · intro rows' _hdup hperm hdeltas
    have hlen : rows'.length = rows.length := hperm.length_eq
    have hdlen : (posDeltas rows').length = (posDeltas rows).length := hdeltas.length_eq
    have hsorted : (posDeltas rows').mergeSort (fun a b => decide (a ≤ b)) =
        (posDeltas rows).mergeSort (fun a b => decide (a ≤ b)) :=
      List.eq_of_perm_of_sorted
        (((List.mergeSort_perm _ _).trans hdeltas).trans (List.mergeSort_perm _ _).symm)
        (sorted_mergeSort_le _) (sorted_mergeSort_le _)
    simp only [estimateSamplingHz, hlen, hdlen, hsorted]

/-- Witness for C5: two rows 10 ms apart give `some 100` Hz, one row gives
`none`, and a trivial reordering with the same delta multiset gives the same
estimate. -/
theorem c5_sampling_estimator_witness :
    (estimateSamplingHz (α := ℚ)
        [⟨0, fun _ => none⟩, ⟨10, fun _ => none⟩] =
      some (1000 / median ((posDeltas
        ([⟨0, fun _ => none⟩, ⟨10, fun _ => none⟩] : List (ParsedRow ℚ))).map
          (fun d : ℤ => (d : ℚ))))) ∧
    estimateSamplingHz (α := ℚ) [⟨0, fun _ => none⟩] = none ∧
    estimateSamplingHz (α := ℚ) [⟨0, fun _ => none⟩, ⟨10, fun _ => none⟩] =
      estimateSamplingHz (α := ℚ) [⟨0, fun _ => none⟩, ⟨10, fun _ => none⟩] := by
  refine ⟨?_, ?_, ?_⟩
  · exact (c5_sampling_estimator _).1 (by simp) (by simp [posDeltas])
  · exact (c5_sampling_estimator _).2.1 (Or.inl (by simp))
  · exact (c5_sampling_estimator
      ([⟨0, fun _ => none⟩, ⟨10, fun _ => none⟩] : List (ParsedRow ℚ))).2.2
      _ (by simp) (List.Perm.refl _) (List.Perm.refl _)

/-! ## Claim C2: the robust peak detector -/

/-- The in-range magnitude list is never longer than the bin count. -/
theorem magsInRange_length_le {α : Type} [LinearOrderedField α]
    (s : Spectrum α) (fminHz : α) :
    (magsInRange s fminHz).length ≤ min s.freqs.length s.mags.length := by
  unfold magsInRange
  rw [List.length_map]
  exact le_trans (List.length_filter_le _ _) (by rw [List.length_range])

/-- Membership in the peak list, decomposed down to the loop condition. -/
theorem mem_detectPeaks_iff {α : Type} [LinearOrderedField α]
    (s : Spectrum α) (fminHz : α)
    (h5 : ¬ min s.freqs.length s.mags.length < 5)
    (hm5 : ¬ (magsInRange s fminHz).length < 5) (p : Peak α) :
    p ∈ detectPeaksIgnoringNoiseFloor s fminHz ↔
      ∃ i, (1 ≤ i ∧ i < min s.freqs.length s.mags.length - 1) ∧
        isPeakAt s fminHz i = true ∧
        p = ⟨i, s.freqs.getD i 0, s.mags.getD i 0,
          s.mags.getD i 0 - peakThreshold s fminHz⟩ := by
  unfold detectPeaksIgnoringNoiseFloor
  rw [if_neg h5, if_neg hm5]
  rw [List.mem_mergeSort, List.mem_map]
  constructor
  · rintro ⟨i, hi, rfl⟩
    rw [List.mem_filter] at hi
    obtain ⟨hir, hg⟩ := hi
    rw [List.mem_range'] at hir
    obtain ⟨j, hj, rfl⟩ := hir
    exact ⟨1 + 1 * j, ⟨by omega, by omega⟩, hg, rfl⟩
  · rintro ⟨i, ⟨h1, h2⟩, hg, rfl⟩
    refine ⟨i, ?_, rfl⟩
    rw [List.mem_filter, List.mem_range']
    exact ⟨⟨i - 1, by omega, by omega⟩, hg⟩

/-- **C2.** With fewer than 5 in-range bins the detector returns no peaks;
otherwise a bin is reported iff it is a strict interior bin, in range, above
the robust threshold `med + 3·mad`, and a strict local maximum, and each
reported peak carries `residual = magnitude - threshold`; in particular a
flat-magnitude spectrum yields zero peaks. -/
theorem c2_peak_detector {α : Type} [LinearOrderedField α] (s : Spectrum α) (fminHz : α) :
    ((magsInRange s fminHz).length < 5 →
      detectPeaksIgnoringNoiseFloor s fminHz = []) ∧
    (5 ≤ (magsInRange s fminHz).length →
      ∀ p : Peak α, p ∈ detectPeaksIgnoringNoiseFloor s fminHz ↔
        (1 ≤ p.index ∧ p.index + 1 < min s.freqs.length s.mags.length ∧
          fminHz ≤ s.freqs.getD p.index 0 ∧
          peakThreshold s fminHz < s.mags.getD p.index 0 ∧
          s.mags.getD (p.index - 1) 0 < s.mags.getD p.index 0 ∧
          s.mags.getD (p.index + 1) 0 < s.mags.getD p.index 0 ∧
          p.freq = s.freqs.getD p.index 0 ∧
          p.mag = s.mags.getD p.index 0 ∧
          p.residual = s.mags.getD p.index 0 - peakThreshold s fminHz)) ∧
    (∀ (m : ℕ) (c : α) (freqs : List α),
      detectPeaksIgnoringNoiseFloor ⟨freqs, List.replicate m c⟩ fminHz = []) := by
  refine ⟨?_, ?_, ?_⟩
  · intro h
    unfold detectPeaksIgnoringNoiseFloor
    by_cases hn : min s.freqs.length s.mags.length < 5
    · rw [if_pos hn]
    · rw [if_neg hn, if_pos h]
  · intro h p
    have h5 : ¬ min s.freqs.length s.mags.length < 5 :=
      not_lt.mpr (le_trans h (magsInRange_length_le s fminHz))
    rw [mem_detectPeaks_iff s fminHz h5 (not_lt.mpr h)]
    constructor
    · rintro ⟨i, ⟨h1, h2⟩, hg, rfl⟩
      simp only [isPeakAt, Bool.and_eq_true, decide_eq_true_eq] at hg
      refine ⟨h1, ?_, hg.1.1.1, hg.1.1.2, hg.1.2, hg.2, rfl, rfl, rfl⟩
      show i + 1 < min s.freqs.length s.mags.length
      omega
    · rintro ⟨h1, h2, hfreq, hthr, hleft, hright, hf, hm, hr⟩
      refine ⟨p.index, ⟨h1, by omega⟩, ?_, ?_⟩
      · simp only [isPeakAt, Bool.and_eq_true, decide_eq_true_eq]
        exact ⟨⟨⟨hfreq, hthr⟩, hleft⟩, hright⟩
      · obtain ⟨i, fr, mg, res⟩ := p
        simp only at hf hm hr
        rw [hf, hm, hr]
  · intro m c freqs
    unfold detectPeaksIgnoringNoiseFloor
    by_cases hn : min freqs.length (List.replicate m c).length < 5
    · rw [if_pos hn]
    · rw [if_neg hn]
      by_cases hm : (magsInRange ⟨freqs, List.replicate m c⟩ fminHz).length < 5
      · rw [if_pos hm]
      · rw [if_neg hm]
        have hfilter : (List.range' 1 (min freqs.length (List.replicate m c).length - 2)).filter
            (isPeakAt ⟨freqs, List.replicate m c⟩ fminHz) = [] := by
          rw [List.filter_eq_nil_iff]
          intro i hi
          rw [List.mem_range'] at hi
          obtain ⟨j, hj, rfl⟩ := hi
          simp only [isPeakAt, Bool.and_eq_true, decide_eq_true_eq]
          intro hcond
          obtain ⟨-, hd⟩ := hcond
          have hlen : (List.replicate m c).length = m := List.length_replicate m c
          have hij : 1 + 1 * j + 1 < m := by omega
          have hgd : ∀ i' : ℕ, i' < m →
              ((List.replicate m c).getD i' 0 : α) = c := by
            intro i' hi'
            rw [List.getD_eq_getElem?_getD, List.getElem?_replicate, if_pos hi']
            rfl
          rw [hgd _ (by omega), hgd _ (by omega)] at hd
          exact absurd hd (lt_irrefl c)
        rw [hfilter]
        simp

/-- The 5-bin rational spectrum used by the C2 witness: a single spike at
bin 2. -/
def exSpec5 : Spectrum ℚ := ⟨[0, 1, 2, 3, 4], [0, 0, 100, 0, 0]⟩

/-- The 3-bin rational spectrum used by the C2 witness. -/
def exSpec3 : Spectrum ℚ := ⟨[0, 1, 2], [0, 0, 0]⟩

/-- Witness for C2 at concrete rational spectra: a 3-bin spectrum has fewer
than 5 in-range bins and reports nothing; a 5-bin spectrum satisfies the
membership characterisation; a flat 5-bin spectrum reports nothing. -/
theorem c2_peak_detector_witness :
    ((magsInRange exSpec3 0).length < 5 ∧
      detectPeaksIgnoringNoiseFloor exSpec3 0 = []) ∧
    (5 ≤ (magsInRange exSpec5 0).length ∧
      ∀ p : Peak ℚ, p ∈ detectPeaksIgnoringNoiseFloor exSpec5 0 ↔
        (1 ≤ p.index ∧ p.index + 1 < min exSpec5.freqs.length exSpec5.mags.length ∧
          (0 : ℚ) ≤ exSpec5.freqs.getD p.index 0 ∧
          peakThreshold exSpec5 0 < exSpec5.mags.getD p.index 0 ∧
          exSpec5.mags.getD (p.index - 1) 0 < exSpec5.mags.getD p.index 0 ∧
          exSpec5.mags.getD (p.index + 1) 0 < exSpec5.mags.getD p.index 0 ∧
          p.freq = exSpec5.freqs.getD p.index 0 ∧
          p.mag = exSpec5.mags.getD p.index 0 ∧
          p.residual = exSpec5.mags.getD p.index 0 - peakThreshold exSpec5 0)) ∧
    detectPeaksIgnoringNoiseFloor
      (Spectrum.mk ([0, 1, 2, 3, 4] : List ℚ) (List.replicate 5 (7 : ℚ))) 0 = [] := by
  have h3 : (magsInRange exSpec3 0).length < 5 := by
    have hb := magsInRange_length_le exSpec3 0
    have hmin : min exSpec3.freqs.length exSpec3.mags.length = 3 := by decide
    omega
  have h5 : 5 ≤ (magsInRange exSpec5 0).length := by decide
  exact ⟨⟨h3, (c2_peak_detector exSpec3 0).1 h3⟩,
    ⟨h5, fun p => (c2_peak_detector exSpec5 0).2.1 h5 p⟩,
    (c2_peak_detector (Spectrum.mk ([0, 1, 2, 3, 4] : List ℚ)
      (List.replicate 5 (7 : ℚ))) 0).2.2 5 7 [0, 1, 2, 3, 4]⟩

/-! ## Claim C4: the harmonic selector -/

/-- Every detected peak already has frequency at least `fminHz` (so the
re-filter inside `getHarmonicFrequencies` is the identity). -/
theorem detectPeaks_freq_ge {α : Type} [LinearOrderedField α]
    (s : Spectrum α) (fminHz : α) :
    ∀ p ∈ detectPeaksIgnoringNoiseFloor s fminHz, fminHz ≤ p.freq := by
  intro p hp
  unfold detectPeaksIgnoringNoiseFloor at hp
  by_cases h5 : min s.freqs.length s.mags.length < 5
  · rw [if_pos h5] at hp
    exact absurd hp (List.not_mem_nil p)
  · by_cases hm5 : (magsInRange s fminHz).length < 5
    · rw [if_neg h5, if_pos hm5] at hp
      exact absurd hp (List.not_mem_nil p)
    · rw [if_neg h5, if_neg hm5, List.mem_mergeSort, List.mem_map] at hp
      obtain ⟨i, hi, rfl⟩ := hp
      rw [List.mem_filter] at hi
      have := hi.2
      simp only [isPeakAt, Bool.and_eq_true, decide_eq_true_eq] at this
      exact this.1.1.1

/-- The filter inside `getHarmonicFrequencies` keeps every peak. -/
theorem getHarmonicFrequencies_eq {α : Type} [LinearOrderedField α]
    (s : Spectrum α) (fminHz : α) :
    getHarmonicFrequencies s fminHz =
      dedupNear (((detectPeaksIgnoringNoiseFloor s fminHz).mergeSort
        (fun a b => decide (b.mag ≤ a.mag))).map (fun p => p.freq)) none := by
  unfold getHarmonicFrequencies
  rw [List.filter_eq_self.mpr (fun p hp =>
    decide_eq_true (detectPeaks_freq_ge s fminHz p hp))]

/-- The dedup walk keeps only frequencies strictly more than `1e-6` away
from the previously kept one, starting from `last`. -/
theorem chain_dedupNear {α : Type} [LinearOrderedField α] :
    ∀ (l : List α) (last : α),
      List.Chain (fun a b => 1 / 10 ^ 6 < |b - a|) last (dedupNear l (some last))
  | [], last => by
    unfold dedupNear
    exact List.Chain.nil
  | f :: fs, last => by
    unfold dedupNear
    by_cases hc : 1 / 10 ^ 6 < |f - last|
    · rw [if_pos hc]
      exact List.Chain.cons hc (chain_dedupNear fs f)
    · rw [if_neg hc]
      exact chain_dedupNear fs last

/-- Consecutive kept frequencies differ by more than `1e-6`. -/
theorem chain'_dedupNear {α : Type} [LinearOrderedField α] (l : List α) :
    (dedupNear l none).Chain' (fun a b => 1 / 10 ^ 6 < |b - a|) := by
  cases l with
  | nil => exact trivial
  | cons f fs =>
    show List.Chain _ f (dedupNear fs (some f))
    exact chain_dedupNear fs f

/-- `mergeSort` with the reversed comparator `decide (b.mag ≤ a.mag)` sorts
peaks descending by raw magnitude. -/
theorem sorted_mergeSort_mag_desc {α : Type} [LinearOrderedField α]
    (l : List (Peak α)) :
    ((l.mergeSort (fun a b => decide (b.mag ≤ a.mag))).Pairwise
      (fun a b => b.mag ≤ a.mag)) := by
  have h := @List.sorted_mergeSort _ (fun a b : Peak α => decide (b.mag ≤ a.mag))
    (fun a b c hab hbc => by
      simp only [decide_eq_true_eq] at hab hbc ⊢
      exact le_trans hbc hab)
    (fun a b => by
      simp only [Bool.or_eq_true, decide_eq_true_eq]
      exact le_total b.mag a.mag) l
  exact h.imp (fun {a b} hab => by simpa using hab)

/-- **C4.** The selected harmonics are the detected peak frequencies
re-sorted descending by raw magnitude, walked keeping a frequency only when
it differs from the last kept one by more than `1e-6` Hz, and truncated to
the first `K` entries: `K = 0` yields `[]`, the result never has more than
`K` entries (and never more than are available), and when at most `K`
distinct frequencies are available the result is exactly the available
list. -/
theorem c4_harmonic_selector {α : Type} [LinearOrderedField α] (s : Spectrum α)
    (fminHz : α) (k : ℕ) :
    (getHarmonicFrequencies s fminHz).take 0 = [] ∧
    ((getHarmonicFrequencies s fminHz).take k).length ≤ k ∧
    ((getHarmonicFrequencies s fminHz).length ≤ k →
      (getHarmonicFrequencies s fminHz).take k = getHarmonicFrequencies s fminHz) ∧
    (getHarmonicFrequencies s fminHz).Chain' (fun a b => 1 / 10 ^ 6 < |b - a|) ∧
    (∃ ps : List (Peak α),
      ps.Perm (detectPeaksIgnoringNoiseFloor s fminHz) ∧
      ps.Pairwise (fun a b => b.mag ≤ a.mag) ∧
      getHarmonicFrequencies s fminHz = dedupNear (ps.map (fun p => p.freq)) none) := by
  refine ⟨List.take_zero _, List.length_take_le k _, fun h => List.take_of_length_le h, ?_, ?_⟩
  · rw [getHarmonicFrequencies_eq]
    exact chain'_dedupNear _
  · exact ⟨(detectPeaksIgnoringNoiseFloor s fminHz).mergeSort
        (fun a b => decide (b.mag ≤ a.mag)),
      List.mergeSort_perm _ _, sorted_mergeSort_mag_desc _,
      getHarmonicFrequencies_eq s fminHz⟩

/-- Witness for C4 at the concrete 5-bin spike spectrum: taking as many
entries as are available returns exactly the available list, and `K = 0`
yields the empty list. -/
theorem c4_harmonic_selector_witness :
    (getHarmonicFrequencies exSpec5 0).take (getHarmonicFrequencies exSpec5 0).length =
      getHarmonicFrequencies exSpec5 0 ∧
    (getHarmonicFrequencies exSpec5 0).take 0 = [] :=
  ⟨(c4_harmonic_selector exSpec5 0 (getHarmonicFrequencies exSpec5 0).length).2.2.1 le_rfl,
    (c4_harmonic_selector exSpec5 0 0).1⟩

/-! ## Claim C6: ingestor ordering and deduplication -/

/-- The row sort is non-decreasing in timestamps. -/
theorem sortRows_pairwise {α : Type} [LinearOrderedField α] (data : List (ParsedRow α)) :
    (sortRows data).Pairwise (fun a b => a.time ≤ b.time) := by
  have h := @List.sorted_mergeSort _
    (fun a b : ParsedRow α => decide (a.time ≤ b.time))
    (fun a b c hab hbc => by
      simp only [decide_eq_true_eq] at hab hbc ⊢
      exact le_trans hab hbc)
    (fun a b => by
      simp only [Bool.or_eq_true, decide_eq_true_eq]
      exact le_total a.time b.time) data
  exact h.imp (fun {a b} hab => by simpa using hab)

/-- Every row surviving the dedup walk comes from the input. -/
theorem dedupRows_subset {α : Type} [LinearOrderedField α] :
    ∀ (l : List (ParsedRow α)) (lastT : Option ℤ), ∀ r ∈ dedupRows l lastT, r ∈ l
  | [], _ => by
    intro r hr
    exact absurd hr (List.not_mem_nil r)
  | r0 :: rs, lastT => by
    intro r hr
    unfold dedupRows at hr
    by_cases hc : some r0.time = lastT
    · rw [if_pos hc] at hr
      exact List.mem_cons_of_mem _ (dedupRows_subset rs lastT r hr)
    · rw [if_neg hc] at hr
      rcases List.mem_cons.mp hr with rfl | hr'
      · exact List.mem_cons_self _ _
      · exact List.mem_cons_of_mem _ (dedupRows_subset rs (some r0.time) r hr')

/-- On a time-sorted suffix whose rows all lie at or after `last`, the dedup
walk produces strictly increasing timestamps, all strictly after `last`. -/
theorem dedupRows_sorted_chain {α : Type} [LinearOrderedField α] :
    ∀ (l : List (ParsedRow α)) (last : ℤ),
      l.Pairwise (fun a b => a.time ≤ b.time) →
      (∀ r ∈ l, last ≤ r.time) →
      ((dedupRows l (some last)).map (fun r => r.time)).Chain' (· < ·) ∧
      (∀ r ∈ dedupRows l (some last), last < r.time)
  | [], last => by
    intro _ _
    exact ⟨trivial, fun r hr => absurd hr (List.not_mem_nil r)⟩
  | r0 :: rs, last => by
    intro hpw hge
    have hpw' : rs.Pairwise (fun a b => a.time ≤ b.time) := hpw.of_cons
    have hr0le : ∀ r ∈ rs, r0.time ≤ r.time := fun r hr =>
      (List.rel_of_pairwise_cons hpw) hr
    have hr0ge : last ≤ r0.time := hge r0 (List.mem_cons_self _ _)
    unfold dedupRows
    by_cases hc : some r0.time = some last
    · rw [if_pos hc]
      have heq : r0.time = last := Option.some_injective _ hc
      exact dedupRows_sorted_chain rs last hpw'
        (fun r hr => heq ▸ hr0le r hr)
    · rw [if_neg hc]
      have hne : r0.time ≠ last := fun h => hc (congrArg some h)
      have hlt : last < r0.time := lt_of_le_of_ne hr0ge (Ne.symm hne)
      obtain ⟨ihchain, ihbound⟩ := dedupRows_sorted_chain rs r0.time hpw' hr0le
      constructor
      · rw [List.map_cons, List.chain'_cons']
        refine ⟨?_, ihchain⟩
        intro y hy
        rw [List.head?_map] at hy
        obtain ⟨r', hr', rfl⟩ := Option.map_eq_some'.mp hy
        exact ihbound r' (List.mem_of_mem_head? hr')
      · intro r hr
        rcases List.mem_cons.mp hr with rfl | hr'
        · exact hlt
        · exact lt_trans hlt (ihbound r hr')

/-- Every input timestamp survives the dedup walk (or coincides with the
`last` timestamp the walk starts from). -/
theorem dedupRows_times_covered {α : Type} [LinearOrderedField α] :
    ∀ (l : List (ParsedRow α)) (last : ℤ), ∀ r ∈ l,
      (∃ r' ∈ dedupRows l (some last), r'.time = r.time) ∨ r.time = last
  | [], _ => by
    intro r hr
    exact absurd hr (List.not_mem_nil r)
  | r0 :: rs, last => by
    intro r hr
    unfold dedupRows
    by_cases hc : some r0.time = some last
    · rw [if_pos hc]
      have heq : r0.time = last := Option.some_injective _ hc
      rcases List.mem_cons.mp hr with rfl | hr'
      · exact Or.inr heq
      · exact dedupRows_times_covered rs last r hr'
    · rw [if_neg hc]
      rcases List.mem_cons.mp hr with rfl | hr'
      · exact Or.inl ⟨r, List.mem_cons_self _ _, rfl⟩
      · rcases dedupRows_times_covered rs r0.time r hr' with ⟨r', hr'', ht⟩ | ht
        · exact Or.inl ⟨r', List.mem_cons_of_mem _ hr'', ht⟩
        · exact Or.inl ⟨r0, List.mem_cons_self _ _, ht.symm⟩

/-- On a time-sorted suffix whose rows all lie at or after `last`, the rows
the dedup walk keeps at time `t` are: none if `t = last`, else the first
input row at time `t`. -/
theorem dedupRows_filter_time {α : Type} [LinearOrderedField α] :
    ∀ (l : List (ParsedRow α)) (last : ℤ) (t : ℤ),
      l.Pairwise (fun a b => a.time ≤ b.time) →
      (∀ r ∈ l, last ≤ r.time) →
      (dedupRows l (some last)).filter (fun r => decide (r.time = t)) =
        if t = last then [] else (l.filter (fun r => decide (r.time = t))).take 1
  | [], last, t => by
    intro _ _
    unfold dedupRows
    by_cases ht : t = last
    · rw [if_pos ht]
      rfl
    · rw [if_neg ht]
      rfl
  | r0 :: rs, last, t => by
    intro hpw hge
    have hpw' : rs.Pairwise (fun a b => a.time ≤ b.time) := hpw.of_cons
    have hr0le : ∀ r ∈ rs, r0.time ≤ r.time := fun r hr =>
      (List.rel_of_pairwise_cons hpw) hr
    have hr0ge : last ≤ r0.time := hge r0 (List.mem_cons_self _ _)
    unfold dedupRows
    by_cases hc : some r0.time = some last
    · rw [if_pos hc]
      have heq : r0.time = last := Option.some_injective _ hc
      rw [dedupRows_filter_time rs last t hpw' (fun r hr => heq ▸ hr0le r hr)]
      by_cases ht : t = last
      · rw [if_pos ht, if_pos ht]
      · rw [if_neg ht, if_neg ht, List.filter_cons,
          if_neg (by simp only [decide_eq_true_eq]; omega)]
    · rw [if_neg hc]
      have hne : r0.time ≠ last := fun h => hc (congrArg some h)
      have hlt : last < r0.time := lt_of_le_of_ne hr0ge (Ne.symm hne)
      rw [List.filter_cons]
      by_cases ht : t = last
      · rw [if_pos ht]
        rw [if_neg (by simp only [decide_eq_true_eq]; omega)]
        rw [dedupRows_filter_time rs r0.time t hpw' hr0le,
          if_neg (by omega)]
        have hnil : rs.filter (fun r => decide (r.time = t)) = [] := by
          rw [List.filter_eq_nil_iff]
          intro r hr
          simp only [decide_eq_true_eq]
          have := hr0le r hr
          omega
        rw [hnil]
        rfl
      · rw [if_neg ht]
        by_cases ht0 : r0.time = t
        · rw [if_pos (by simpa using ht0)]
          rw [dedupRows_filter_time rs r0.time t hpw' hr0le, if_pos ht0.symm,
            List.filter_cons, if_pos (by simpa using ht0)]
          rfl
        · rw [if_neg (by simpa using ht0)]
          rw [dedupRows_filter_time rs r0.time t hpw' hr0le,
            if_neg (fun h => ht0 h.symm),
            List.filter_cons, if_neg (by simpa using ht0)]

/-- Stability of the row sort: the rows at any fixed time `t` appear in the
sorted list exactly as they appear, in order, in the input. -/
theorem sortRows_filter_time {α : Type} [LinearOrderedField α]
    (data : List (ParsedRow α)) (t : ℤ) :
    (sortRows data).filter (fun r => decide (r.time = t)) =
      data.filter (fun r => decide (r.time = t)) := by
  have hpwA : (data.filter (fun r => decide (r.time = t))).Pairwise
      (fun a b : ParsedRow α => decide (a.time ≤ b.time) = true) := by
    refine List.pairwise_of_forall_mem_list ?_
    intro a ha b hb
    rw [List.mem_filter] at ha hb
    have ha' := of_decide_eq_true ha.2
    have hb' := of_decide_eq_true hb.2
    simp only [decide_eq_true_eq]
    omega
  have hsub : List.Sublist (data.filter (fun r => decide (r.time = t))) (sortRows data) :=
    List.sublist_mergeSort
      (fun a b c hab hbc => by
        simp only [decide_eq_true_eq] at hab hbc ⊢
        exact le_trans hab hbc)
      (fun a b => by
        simp only [Bool.or_eq_true, decide_eq_true_eq]
        exact le_total a.time b.time)
      hpwA (List.filter_sublist data)
  have hsub' : List.Sublist (data.filter (fun r => decide (r.time = t)))
      ((sortRows data).filter (fun r => decide (r.time = t))) := by
    have := hsub.filter (fun r => decide (r.time = t))
    rwa [List.filter_filter, show
      (fun r : ParsedRow α => decide (r.time = t) && decide (r.time = t)) =
        (fun r : ParsedRow α => decide (r.time = t)) from
      funext (fun r => by cases h : decide (r.time = t) <;> simp [h])] at this
  have hperm : List.Perm ((sortRows data).filter (fun r => decide (r.time = t)))
      (data.filter (fun r => decide (r.time = t))) :=
    (List.mergeSort_perm data _).filter _
  exact (hsub'.eq_of_length hperm.length_eq.symm).symm

/-- **C6.** For any parsed input rows in any order, the ingested Series has
strictly increasing (hence unique, ascending-sorted) timestamps; every kept
row is an input row; every input timestamp is represented; and at each
timestamp the kept row is exactly the first input occurrence (duplicates are
dropped, first occurrence wins). -/
theorem c6_ingestor_sorted_unique (α : Type) [LinearOrderedField α]
    (data : List (ParsedRow α)) :
    ((parsePost data).map (fun r => r.time)).Chain' (· < ·) ∧
    (∀ r ∈ parsePost data, r ∈ data) ∧
    (∀ r ∈ data, ∃ r' ∈ parsePost data, r'.time = r.time) ∧
    (∀ t : ℤ, (parsePost data).filter (fun r => decide (r.time = t)) =
      (data.filter (fun r => decide (r.time = t))).take 1) := by
  have hpw := sortRows_pairwise data
  refine ⟨?_, ?_, ?_, ?_⟩
  · unfold parsePost
    cases hps : sortRows data with
    | nil => exact trivial
    | cons r0 rs =>
      rw [hps] at hpw
      unfold dedupRows
      rw [if_neg (Option.some_ne_none r0.time)]
      rw [List.map_cons, List.chain'_cons']
      obtain ⟨ihchain, ihbound⟩ := dedupRows_sorted_chain rs r0.time hpw.of_cons
        (fun r hr => (List.rel_of_pairwise_cons hpw) hr)
      refine ⟨?_, ihchain⟩
      intro y hy
      rw [List.head?_map] at hy
      obtain ⟨r', hr', rfl⟩ := Option.map_eq_some'.mp hy
      exact ihbound r' (List.mem_of_mem_head? hr')
  · intro r hr
    have h1 : r ∈ sortRows data := dedupRows_subset _ _ r hr
    exact (List.mem_mergeSort).mp h1
  · intro r hr
    have h1 : r ∈ sortRows data := (List.mem_mergeSort).mpr hr
    unfold parsePost
    cases hps : sortRows data with
    | nil =>
      rw [hps] at h1
      exact absurd h1 (List.not_mem_nil r)
    | cons r0 rs =>
      rw [hps] at h1 hpw
      unfold dedupRows
      rw [if_neg (Option.some_ne_none r0.time)]
      rcases List.mem_cons.mp h1 with rfl | h1'
      · exact ⟨r, List.mem_cons_self _ _, rfl⟩
      · rcases dedupRows_times_covered rs r0.time r h1' with ⟨r', hr'', ht⟩ | ht
        · exact ⟨r', List.mem_cons_of_mem _ hr'', ht⟩
        · exact ⟨r0, List.mem_cons_self _ _, ht.symm⟩
  · intro t
    rw [← sortRows_filter_time data t]
    unfold parsePost
    cases hps : sortRows data with
    | nil => rfl
    | cons r0 rs =>
      rw [hps] at hpw
      unfold dedupRows
      rw [if_neg (Option.some_ne_none r0.time)]
      rw [List.filter_cons, List.filter_cons]
      by_cases ht0 : r0.time = t
      · rw [if_pos (by simpa using ht0), if_pos (by simpa using ht0)]
        have h0 : (dedupRows rs (some r0.time)).filter
            (fun r => decide (r.time = t)) = [] := by
          rw [dedupRows_filter_time rs r0.time t hpw.of_cons
            (fun r hr => (List.rel_of_pairwise_cons hpw) hr), if_pos ht0.symm]
        rw [h0]
        rfl
      · rw [if_neg (by simpa using ht0), if_neg (by simpa using ht0)]
        rw [dedupRows_filter_time rs r0.time t hpw.of_cons
          (fun r hr => (List.rel_of_pairwise_cons hpw) hr),
          if_neg (fun h => ht0 h.symm)]

/-- Witness for C6 at a concrete input with a duplicate timestamp. -/
theorem c6_ingestor_sorted_unique_witness :
    ((parsePost ([⟨0, fun _ => none⟩, ⟨0, fun _ => none⟩, ⟨5, fun _ => none⟩] :
        List (ParsedRow ℚ))).map (fun r => r.time)).Chain' (· < ·) ∧
    (parsePost ([⟨0, fun _ => none⟩, ⟨0, fun _ => none⟩, ⟨5, fun _ => none⟩] :
        List (ParsedRow ℚ))).filter (fun r => decide (r.time = 0)) =
      (([⟨0, fun _ => none⟩, ⟨0, fun _ => none⟩, ⟨5, fun _ => none⟩] :
        List (ParsedRow ℚ)).filter (fun r => decide (r.time = 0))).take 1 :=
  ⟨(c6_ingestor_sorted_unique ℚ _).1, (c6_ingestor_sorted_unique ℚ _).2.2.2 0⟩

/-! ## Claim C1: the reconstructed sample values -/

/-- `relTimesAux` has one output per input row. -/
theorem relTimesAux_length (t0 : ℤ) :
    ∀ (l : List (ParsedRow ℝ)) (prev : ℝ), (relTimesAux t0 l prev).length = l.length
  | [], _ => rfl
  | r :: rs, prev => by
    unfold relTimesAux
    rw [List.length_cons, List.length_cons, relTimesAux_length t0 rs]

/-- `relTimesSec` is aligned 1:1 with the rows. -/
theorem relTimesSec_length (rows : List (ParsedRow ℝ)) :
    (relTimesSec rows).length = rows.length := by
  cases rows with
  | nil => rfl
  | cons r0 rest =>
    unfold relTimesSec
    rw [List.length_cons, List.length_cons, relTimesAux_length]

/-- On rows with non-decreasing timestamps the monotonicity clamp of
`relTimesAux` is the identity: every relative time is just
`(time - t0) / 1000`. -/
theorem relTimesAux_of_sorted (t0 : ℤ) :
    ∀ (l : List (ParsedRow ℝ)) (prev : ℝ),
      l.Pairwise (fun a b => a.time ≤ b.time) →
      (∀ r ∈ l, prev ≤ ((r.time - t0 : ℤ) : ℝ) / 1000) →
      relTimesAux t0 l prev = l.map (fun r => ((r.time - t0 : ℤ) : ℝ) / 1000)
  | [], _ => by
    intro _ _
    rfl
  | r :: rs, prev => by
    intro hpw hge
    have hmax : max prev (((r.time - t0 : ℤ) : ℝ) / 1000) =
        ((r.time - t0 : ℤ) : ℝ) / 1000 :=
      max_eq_right (hge r (List.mem_cons_self _ _))
    unfold relTimesAux
    simp only [hmax]
    rw [List.map_cons, relTimesAux_of_sorted t0 rs _ hpw.of_cons ?_]
    intro r' hr'
    have h1 : r.time ≤ r'.time := (List.rel_of_pairwise_cons hpw) hr'
    have h2 : ((r.time - t0 : ℤ) : ℝ) ≤ ((r'.time - t0 : ℤ) : ℝ) := by
      exact_mod_cast sub_le_sub_right h1 t0
    exact (div_le_div_iff_of_pos_right (by norm_num : (0 : ℝ) < 1000)).mpr h2

/-- On strictly increasing rows, `relTimesSec` is seconds since the first
sample. -/
theorem relTimesSec_of_sorted (rows : List (ParsedRow ℝ))
    (hsorted : rows.Chain' (fun a b => a.time < b.time)) (hne : rows ≠ []) :
    relTimesSec rows =
      rows.map (fun r => ((r.time - (rows.head hne).time : ℤ) : ℝ) / 1000) := by
  cases rows with
  | nil => exact absurd rfl hne
  | cons r0 rest =>
    simp only [relTimesSec]
    have hpw : (r0 :: rest).Pairwise (fun a b : ParsedRow ℝ => a.time < b.time) := by
      have : IsTrans (ParsedRow ℝ) (fun a b => a.time < b.time) :=
        ⟨fun a b c hab hbc => lt_trans hab hbc⟩
      exact List.chain'_iff_pairwise.mp hsorted
    rw [List.map_cons]
    have h0 : ((r0.time - ((r0 :: rest).head hne).time : ℤ) : ℝ) / 1000 = 0 := by
      simp
    rw [h0]
    rw [relTimesAux_of_sorted r0.time rest 0
      (hpw.of_cons.imp (fun hab => le_of_lt hab)) ?_]
    · rfl
    · intro r hr
      have h1 : r0.time ≤ r.time := le_of_lt ((List.rel_of_pairwise_cons hpw) hr)
      have h2 : (0 : ℝ) ≤ ((r.time - r0.time : ℤ) : ℝ) := by
        exact_mod_cast sub_nonneg.mpr h1
      positivity

/-- A left fold that only adds equals the initial value plus a sum. -/
theorem foldl_add_map_sum {β : Type} (f : β → ℝ) :
    ∀ (l : List β) (a : ℝ), l.foldl (fun acc x => acc + f x) a = a + (l.map f).sum
  | [], a => by simp
  | x :: xs, a => by
    rw [List.foldl_cons, foldl_add_map_sum f xs (a + f x), List.map_cons, List.sum_cons]
    ring

/-- The reduce in `meanOrig` adds up exactly the finite values. -/
theorem foldl_getD_eq_sum_filterMap :
    ∀ (l : List (Option ℝ)) (a : ℝ),
      l.foldl (fun sa v => sa + v.getD 0) a = a + (l.filterMap id).sum
  | [], a => by simp
  | v :: vs, a => by
    rw [List.foldl_cons, foldl_getD_eq_sum_filterMap vs (a + v.getD 0)]
    cases v with
    | none => simp
    | some x =>
      have hfm : List.filterMap id (some x :: vs) = x :: List.filterMap id vs := by simp
      rw [hfm, List.sum_cons, Option.getD_some]
      ring

/-- The code's `meanOrig` is the sum of the finite channel values divided by
the **total** number of samples. -/
theorem codeMean_eq (series : List (Option ℝ)) :
    codeMean series = (series.filterMap id).sum / (series.length : ℝ) := by
  unfold codeMean
  rw [foldl_getD_eq_sum_filterMap series 0, zero_add]

/-- **C1 (amended).** For every spectrum, strictly increasing non-empty
Series, non-zero sampling rate, channel, and inputs leaving a non-empty
chosen-harmonic list, the reconstruction is defined and its value at each
sample equals the sum of the channel's finite values divided by the *total*
sample count (the code's `meanOrig`; equal to the arithmetic mean of the
finite values only when every sample has a finite value) — added exactly
once globally — plus the sum over the chosen harmonics of
`amp · cos(2π·f·t + phase)` at `t` seconds since the first sample, with
amplitude and phase recovered from the nearest bin
(`mag/fftSize` at bin 0, `2·mag/fftSize` otherwise, `coherentGain = 1`). -/
theorem c1_reconstruction_value (s : ComplexSpectrum) (rows : List (ParsedRow ℝ))
    (sampleHz : ℝ) (hf : List ℝ) (cnt : ℕ) (fminHz : ℝ) (key : ColumnKey)
    (hFs : sampleHz ≠ 0) (hrows : rows ≠ [])
    (hsorted : rows.Chain' (fun a b => a.time < b.time))
    (hch : chosenFreqsOf hf cnt fminHz (sampleHz / 2) ≠ []) :
    reconstructedOf (some s) (some rows) (some sampleHz) hf cnt fminHz key =
      some (rows.map (fun r =>
        ((seriesOf (some rows) key).filterMap id).sum / (rows.length : ℝ) +
        ((chosenFreqsOf hf cnt fminHz (sampleHz / 2)).map (fun f =>
          (reconAmpPhase s f).1 *
            Real.cos (2 * Real.pi * f *
              (((r.time - (rows.head hrows).time : ℤ) : ℝ) / 1000) +
              (reconAmpPhase s f).2))).sum)) := by
  have hlen : ¬ ((relTimesSec rows).length = 0) := by
    rw [relTimesSec_length]
    simpa [List.length_eq_zero] using hrows
  have hchlen : ¬ ((chosenFreqsOf hf cnt fminHz (sampleHz / 2)).length = 0) := by
    simpa [List.length_eq_zero] using hch
  simp only [reconstructedOf]
  rw [if_neg hFs, if_neg hlen, if_neg hchlen]
  rw [relTimesSec_of_sorted rows hsorted hrows]
  rw [List.map_map, List.map_map]
  refine congrArg some (List.map_congr_left ?_)
  intro r hr
  show (chosenFreqsOf hf cnt fminHz (sampleHz / 2)).foldl
      (fun acc f => acc + (reconAmpPhase s f).1 *
        Real.cos (2 * Real.pi * f *
          (((r.time - (rows.head hrows).time : ℤ) : ℝ) / 1000) +
          (reconAmpPhase s f).2)) 0 +
      codeMean (seriesOf (some rows) key) = _
  rw [foldl_add_map_sum, zero_add, codeMean_eq]
  have hslen : (seriesOf (some rows) key).length = rows.length := by
    unfold seriesOf
    rw [Option.getD_some, List.length_map]
  rw [hslen]
  ring


/-- The concrete two-row Series for the C1 counterexample: one finite
`AccX(g)` value and one missing one. -/
def cexRows : List (ParsedRow ℝ) :=
  [⟨0, fun k => if k = ColumnKey.accX then some 1 else none⟩,
   ⟨1000, fun _ => none⟩]

/-- The concrete hand-built spectrum for the C1 counterexample (all
magnitudes zero, so every harmonic term vanishes). -/
def cexSpec : ComplexSpectrum := ⟨[0, 1], [0, 0], [0, 0], some 4⟩

/-- The nearest bin to frequency 1 in the counterexample spectrum. -/
theorem cexSpec_nearestBin : nearestBinIdx cexSpec.freqs 1 = 1 := by
  show (List.range 2).foldl _ 0 = 1
  rw [List.range_succ, List.range_succ, List.range_zero]
  simp only [List.nil_append, List.cons_append, List.foldl_cons, List.foldl_nil, cexSpec]
  norm_num

/-- The chosen-frequency list of the C1 counterexample evaluates to `[1]`. -/
theorem cex_chosen : chosenFreqsOf [1] 1 0 (2 / 2) = [1] := by
  unfold chosenFreqsOf
  norm_num

/-- **C1 counterexample.** At a Series with a missing channel value, the
reconstructed value (here `1/2` at the first sample) differs from the value
the claim asserts: the arithmetic mean of the channel's *finite* values
plus the harmonic cosine sum (here `1 + 0`).  The code divides the sum of
finite values by the total sample count, not by the number of finite
values. -/
theorem c1_counterexample :
    reconstructedOf (some cexSpec) (some cexRows) (some 2) [1] 1 0 ColumnKey.accX =
      some [1 / 2, 1 / 2] ∧
    specC1Value cexSpec (chosenFreqsOf [1] 1 0 (2 / 2))
      (seriesOf (some cexRows) ColumnKey.accX) 0 = 1 ∧
    ¬ ((1 : ℝ) / 2 = specC1Value cexSpec (chosenFreqsOf [1] 1 0 (2 / 2))
        (seriesOf (some cexRows) ColumnKey.accX) 0) := by
  have hmean : codeMean (seriesOf (some cexRows) ColumnKey.accX) = 1 / 2 := by
    unfold codeMean seriesOf cexRows
    norm_num
  have hamp : (reconAmpPhase cexSpec 1).1 = 0 := by
    unfold reconAmpPhase
    rw [cexSpec_nearestBin]
    norm_num [cexSpec]
  have hsm : specMeanOfFinite (seriesOf (some cexRows) ColumnKey.accX) = 1 := by
    unfold specMeanOfFinite seriesOf cexRows
    norm_num [List.filterMap_cons]
  have hval : specC1Value cexSpec (chosenFreqsOf [1] 1 0 (2 / 2))
      (seriesOf (some cexRows) ColumnKey.accX) 0 = 1 := by
    unfold specC1Value
    rw [cex_chosen]
    simp only [List.map_cons, List.map_nil, List.sum_cons, List.sum_nil]
    rw [cexSpec_nearestBin, hsm]
    norm_num [cexSpec]
  refine ⟨?_, hval, ?_⟩
  · simp only [reconstructedOf]
    rw [if_neg (by norm_num : ¬ (2 : ℝ) = 0)]
    rw [if_neg (by rw [relTimesSec_length]; simp [cexRows])]
    rw [if_neg (by rw [cex_chosen]; simp)]
    rw [cex_chosen]
    refine congrArg some ?_
    have htime : relTimesSec cexRows = [0, 1] := by
      have h := relTimesSec_of_sorted cexRows
        (by simp [cexRows, List.chain'_cons]) (by simp [cexRows])
      rw [h]
      unfold cexRows
      norm_num
    rw [htime]
    simp only [List.map_cons, List.map_nil, List.foldl_cons, List.foldl_nil, hamp, hmean]
    norm_num
  · intro h
    rw [hval] at h
    norm_num at h

/-- Witness for the amended C1 at the concrete counterexample input: all
hypotheses hold there and the amended value formula applies. -/
theorem c1_reconstruction_value_witness :
    (2 : ℝ) ≠ 0 ∧ cexRows ≠ [] ∧
    cexRows.Chain' (fun a b => a.time < b.time) ∧
    chosenFreqsOf [1] 1 0 ((2 : ℝ) / 2) ≠ [] ∧
    reconstructedOf (some cexSpec) (some cexRows) (some 2) [1] 1 0 ColumnKey.accX =
      some (cexRows.map (fun r =>
        ((seriesOf (some cexRows) ColumnKey.accX).filterMap id).sum / (cexRows.length : ℝ) +
        ((chosenFreqsOf [1] 1 0 ((2 : ℝ) / 2)).map (fun f =>
          (reconAmpPhase cexSpec f).1 *
            Real.cos (2 * Real.pi * f *
              (((r.time - (cexRows.head (by simp [cexRows])).time : ℤ) : ℝ) / 1000) +
              (reconAmpPhase cexSpec f).2))).sum)) := by
  refine ⟨by norm_num, by simp [cexRows], by simp [cexRows, List.chain'_cons], ?_, ?_⟩
  · rw [cex_chosen]
    simp
  · exact c1_reconstruction_value cexSpec cexRows 2 [1] 1 0 ColumnKey.accX
      (by norm_num) (by simp [cexRows]) (by simp [cexRows, List.chain'_cons])
      (by rw [cex_chosen]; simp)


end FFTBot
